import Mathlib

/-!
Verification of the whisperer push-to-talk dictation tool (`whisperer.py`)
against its natural-language specification.

The Python source is shallowly embedded: strings are `List Char`, Python
floats (timestamps, durations in seconds) are `ℚ`, the module-level mutable
globals are an explicit state record, and the side-effecting entry points
are modelled as effect traces.  Every definition below is translated
directly from the source file; line numbers refer to `whisperer.py`.
-/

namespace Whisperer

/-! ## Audio constants (whisperer.py lines 56-59) -/

/-- `CHUNK = 512` — samples per `stream.read` call. -/
def CHUNK : ℕ := 512

/-- `RATE = 16000` — sample rate in Hz. -/
def RATE : ℕ := 16000

/-! ## Text normalization (`process_transcription`, lines 256-264)

`process_transcription` does, in order:
  1. `re.sub(r"\[.*?\]", "", s)` — remove every leftmost non-greedy
     `[...]` match; `.` does not cross a newline;
  2. `.strip()` — drop leading/trailing whitespace;
  3. `.replace("\n", " ")` — every newline becomes a space;
  4. `.replace("  ", " ")` — one left-to-right pass replacing each
     non-overlapping pair of adjacent spaces by a single space;
  5. empty result ↦ `" "`; otherwise uppercase the first character and
     append one trailing space.
-/

/-- Python `str.strip()` whitespace set (ASCII fragment): space, tab,
newline, carriage return, vertical tab, form feed. -/
def isSp (c : Char) : Bool :=
  c = ' ' || c = '\t' || c = '\n' || c = '\r' || c = Char.ofNat 11 || c = Char.ofNat 12

/-- Scan for the closing `']'` of a non-greedy `\[.*?\]` match: `.` does not
match a newline, so the search stops at `'\n'`.  Returns the remainder of
the list after the `']'` when found. -/
def findClose : List Char → Option (List Char)
  | [] => none
  | c :: rest =>
    if c = ']' then some rest
    else if c = '\n' then none
    else findClose rest

theorem findClose_length {l r : List Char} (h : findClose l = some r) :
    r.length < l.length := by
  induction l with
  | nil => simp [findClose] at h
  | cons c rest ih =>
    by_cases hc : c = ']'
    · simp [findClose, hc] at h
      subst h; simp
    · by_cases hn : c = '\n'
      · simp [findClose, hc, hn] at h
      · simp [findClose, hc, hn] at h
        exact Nat.lt_trans (ih h) (by simp)

/-- Fuel-driven scan implementing `re.sub(r"\[.*?\]", "", s)`: at each
position, a `'['` with a `']'` before the next newline starts a match that
is deleted (scanning resumes after the `']'`); any other character is kept.
Fuel bounds the recursion; `removeBrackets` supplies enough fuel that the
zero-fuel case is never reached. -/
def removeBracketsFuel : ℕ → List Char → List Char
  | 0, l => l
  | _ + 1, [] => []
  | fuel + 1, c :: rest =>
    if c = '[' then
      match findClose rest with
      | some rest' => removeBracketsFuel fuel rest'
      | none => '[' :: removeBracketsFuel fuel rest
    else c :: removeBracketsFuel fuel rest

/-- `re.sub(r"\[.*?\]", "", s)` (line 258). -/
def removeBrackets (l : List Char) : List Char :=
  removeBracketsFuel l.length l

/-- Python `.strip()` from the left. -/
def stripL (l : List Char) : List Char := l.dropWhile isSp

/-- Python `.strip()` from the right. -/
def stripR (l : List Char) : List Char := (l.reverse.dropWhile isSp).reverse

/-- Python `str.strip()` (line 259). -/
def pyStrip (l : List Char) : List Char := stripR (stripL l)

/-- Python `.replace("\n", " ")` (line 259). -/
def replaceNl (l : List Char) : List Char :=
  l.map fun c => if c = '\n' then ' ' else c

/-- Python `.replace("  ", " ")` (line 259): a single left-to-right pass
replacing each non-overlapping pair of adjacent spaces by one space. -/
def replaceDbl : List Char → List Char
  | [] => []
  | [c] => [c]
  | c₁ :: c₂ :: rest =>
    if c₁ = ' ' ∧ c₂ = ' ' then ' ' :: replaceDbl rest
    else c₁ :: replaceDbl (c₂ :: rest)

/-- The ASCII lowercase → uppercase table. -/
def upperPairs : List (Char × Char) :=
  (('a', 'A') :: ('b', 'B') :: ('c', 'C') :: ('d', 'D') :: ('e', 'E') ::
   ('f', 'F') :: ('g', 'G') :: ('h', 'H') :: ('i', 'I') :: ('j', 'J') ::
   ('k', 'K') :: ('l', 'L') :: ('m', 'M') :: ('n', 'N') :: ('o', 'O') ::
   ('p', 'P') :: ('q', 'Q') :: ('r', 'R') :: ('s', 'S') :: ('t', 'T') ::
   ('u', 'U') :: ('v', 'V') :: ('w', 'W') :: ('x', 'X') :: ('y', 'Y') ::
   ('z', 'Z') :: [])

/-- Python single-character `str.upper()` (ASCII fragment), used for
`s[0].upper()` on line 263: a lowercase letter maps to its uppercase
counterpart, every other character is unchanged. -/
def upperChar (c : Char) : Char :=
  ((upperPairs.find? fun p => p.1 = c).map Prod.snd).getD c

/-- Lines 258-259: bracket removal, strip, newline replacement, one
double-space collapsing pass. -/
def normCore (s : List Char) : List Char :=
  replaceDbl (replaceNl (pyStrip (removeBrackets s)))

/-- `process_transcription` (lines 256-264). -/
def process_transcription (s : List Char) : List Char :=
  match normCore s with
  | [] => [' ']
  | c :: rest => (upperChar c :: rest) ++ [' ']

/-- `l` contains no two adjacent spaces. -/
def noDbl : List Char → Bool
  | c₁ :: c₂ :: rest => (!(c₁ = ' ' && c₂ = ' ')) && noDbl (c₂ :: rest)
  | _ => true

/-! ### Lemmas about the normalization passes -/

theorem head?_dropWhile_false {p : Char → Bool} {l : List Char} {c : Char}
    (h : (l.dropWhile p).head? = some c) : p c = false := by
  induction l with
  | nil => simp [List.dropWhile] at h
  | cons a t ih =>
    by_cases ha : p a
    · simp [List.dropWhile_cons, ha] at h; exact ih h
    · simp [List.dropWhile_cons, ha] at h; subst h; simpa using ha

theorem stripR_append (m : List Char) : ∃ t, stripR m ++ t = m := by
  refine ⟨(m.reverse.takeWhile isSp).reverse, ?_⟩
  rw [stripR, ← List.reverse_append, List.takeWhile_append_dropWhile,
    List.reverse_reverse]

theorem pyStrip_head {l : List Char} {c : Char} {r : List Char}
    (h : pyStrip l = c :: r) : isSp c = false := by
  obtain ⟨t, ht⟩ := stripR_append (stripL l)
  rw [pyStrip] at h
  rw [h] at ht
  have : (stripL l).head? = some c := by rw [← ht]; simp
  exact head?_dropWhile_false (p := isSp) this

theorem getLast?_reverse' (x : List Char) : x.reverse.getLast? = x.head? := by
  have h := List.head?_reverse x.reverse
  rw [List.reverse_reverse] at h
  exact h.symm

theorem pyStrip_getLast? {l : List Char} {d : Char}
    (h : (pyStrip l).getLast? = some d) : isSp d = false := by
  rw [pyStrip, stripR, getLast?_reverse'] at h
  exact head?_dropWhile_false (p := isSp) h

theorem replaceNl_not_nl {l : List Char} {x : Char} (hx : x ∈ replaceNl l) :
    x ≠ '\n' := by
  rw [replaceNl] at hx
  obtain ⟨y, hymem, hy⟩ := List.mem_map.mp hx
  by_cases h : y = '\n'
  · rw [if_pos h] at hy
    intro hc
    rw [← hy] at hc
    exact absurd hc (by decide)
  · rw [if_neg h] at hy
    rw [← hy]
    exact h

theorem replaceNl_head? {l : List Char} {c : Char}
    (hc : isSp c = false) (h : l.head? = some c) :
    (replaceNl l).head? = some c := by
  rw [replaceNl, List.head?_map, h]
  have hnc : c ≠ '\n' := by
    intro hh; rw [hh] at hc; exact absurd hc (by decide)
  simp [hnc]

theorem replaceNl_getLast? {l : List Char} {d : Char}
    (hd : isSp d = false) (h : l.getLast? = some d) :
    (replaceNl l).getLast? = some d := by
  rw [← List.head?_reverse]
  have hrev : (replaceNl l).reverse = replaceNl l.reverse := by
    simp [replaceNl]
  rw [hrev, replaceNl, List.head?_map, List.head?_reverse, h]
  have hnd : d ≠ '\n' := by
    intro hh; rw [hh] at hd; exact absurd hd (by decide)
  simp [hnd]

theorem replaceNl_eq_self {l : List Char} (h : ∀ x ∈ l, x ≠ '\n') :
    replaceNl l = l := by
  rw [replaceNl]
  calc l.map (fun c => if c = '\n' then ' ' else c)
      = l.map id := List.map_congr_left fun x hx => by simp [h x hx]
    _ = l := l.map_id

theorem replaceDbl_ne_nil {l : List Char} (h : l ≠ []) : replaceDbl l ≠ [] := by
  match l with
  | [c] => simp [replaceDbl]
  | c₁ :: c₂ :: rest =>
    rw [replaceDbl]
    by_cases hsp : c₁ = ' ' ∧ c₂ = ' ' <;> simp [hsp]

theorem replaceDbl_cons_of_ne {c : Char} (hc : ¬ c = ' ') (l : List Char) :
    replaceDbl (c :: l) = c :: replaceDbl l := by
  match l with
  | [] => simp [replaceDbl]
  | c₂ :: rest =>
    rw [replaceDbl]
    have : ¬ (c = ' ' ∧ c₂ = ' ') := fun h => hc h.1
    simp [this]

theorem replaceDbl_mem {l : List Char} {x : Char} (hx : x ∈ replaceDbl l) :
    x ∈ l := by
  induction l using replaceDbl.induct with
  | case1 => simp [replaceDbl] at hx
  | case2 c => simp [replaceDbl] at hx; simp [hx]
  | case3 c₁ c₂ rest hsp ih =>
    rw [replaceDbl, if_pos hsp] at hx
    rcases List.mem_cons.mp hx with h | h
    · subst h; simp [hsp.1]
    · simp [ih h]
  | case4 c₁ c₂ rest hsp ih =>
    rw [replaceDbl, if_neg hsp] at hx
    rcases List.mem_cons.mp hx with h | h
    · simp [h]
    · simp [ih h]

theorem replaceDbl_getLast? {l : List Char} {d : Char}
    (hd : ¬ d = ' ') (h : l.getLast? = some d) :
    (replaceDbl l).getLast? = some d := by
  induction l using replaceDbl.induct with
  | case1 => simp at h
  | case2 c => simpa [replaceDbl] using h
  | case3 c₁ c₂ rest hsp ih =>
    match rest with
    | [] =>
      rw [List.getLast?_cons_cons] at h
      simp at h
      exact absurd (h ▸ hsp.2) hd
    | e :: rest' =>
      rw [List.getLast?_cons_cons, List.getLast?_cons_cons] at h
      rw [replaceDbl, if_pos hsp]
      have hne := replaceDbl_ne_nil (l := e :: rest') (by simp)
      match hrd : replaceDbl (e :: rest') with
      | [] => exact absurd hrd hne
      | y :: ys =>
        rw [List.getLast?_cons_cons]
        rw [← hrd]
        exact ih h
  | case4 c₁ c₂ rest hsp ih =>
    rw [List.getLast?_cons_cons] at h
    rw [replaceDbl, if_neg hsp]
    have hne := replaceDbl_ne_nil (l := c₂ :: rest) (by simp)
    match hrd : replaceDbl (c₂ :: rest) with
    | [] => exact absurd hrd hne
    | y :: ys =>
      rw [List.getLast?_cons_cons]
      rw [← hrd]
      exact ih h

theorem replaceDbl_of_noDbl {l : List Char} (h : noDbl l = true) :
    replaceDbl l = l := by
  induction l using replaceDbl.induct with
  | case1 => rfl
  | case2 c => rfl
  | case3 c₁ c₂ rest hsp ih =>
    rw [noDbl] at h
    simp [hsp.1, hsp.2] at h
  | case4 c₁ c₂ rest hsp ih =>
    rw [noDbl] at h
    simp only [Bool.and_eq_true] at h
    rw [replaceDbl, if_neg hsp, ih h.2]

theorem noDbl_append_left {l l' : List Char} (h : noDbl (l ++ l') = true) :
    noDbl l = true := by
  induction l with
  | nil => rfl
  | cons c t ih =>
    match t with
    | [] => rfl
    | c₂ :: t' =>
      rw [List.cons_append, List.cons_append, noDbl] at h
      simp only [Bool.and_eq_true] at h
      rw [noDbl]
      simp only [Bool.and_eq_true]
      exact ⟨h.1, ih (by rw [List.cons_append]; exact h.2)⟩

/-- The 26 uppercase ASCII letters. -/
def upperLetters : List Char :=
  ('A' :: 'B' :: 'C' :: 'D' :: 'E' :: 'F' :: 'G' :: 'H' :: 'I' :: 'J' :: 'K' ::
   'L' :: 'M' :: 'N' :: 'O' :: 'P' :: 'Q' :: 'R' :: 'S' :: 'T' :: 'U' :: 'V' ::
   'W' :: 'X' :: 'Y' :: 'Z' :: [])

theorem upperChar_mem (c : Char) : upperChar c = c ∨ upperChar c ∈ upperLetters := by
  rw [upperChar]
  match hf : upperPairs.find? fun p => p.1 = c with
  | none => rw [hf]; exact Or.inl rfl
  | some p =>
    rw [hf]
    have hp : p ∈ upperPairs := List.mem_of_find?_eq_some hf
    have hall : ∀ q ∈ upperPairs, q.2 ∈ upperLetters := by decide
    exact Or.inr (hall p hp)

theorem upperChar_of_upper : ∀ u ∈ upperLetters, upperChar u = u := by decide

theorem upperChar_idem (c : Char) : upperChar (upperChar c) = upperChar c := by
  rcases upperChar_mem c with h | h
  · rw [h]; exact h
  · exact upperChar_of_upper _ h

theorem upperChar_not_sp {c : Char} (hc : isSp c = false) :
    isSp (upperChar c) = false := by
  rcases upperChar_mem c with h | h
  · rw [h]; exact hc
  · revert h
    have : ∀ u ∈ upperLetters, isSp u = false := by decide
    exact fun h => this _ h

theorem upperChar_ne_nl {c : Char} (hc : c ≠ '\n') : upperChar c ≠ '\n' := by
  rcases upperChar_mem c with h | h
  · rw [h]; exact hc
  · revert h
    have : ∀ u ∈ upperLetters, u ≠ '\n' := by decide
    exact fun h => this _ h

theorem dropWhile_eq_self {p : Char → Bool} {l : List Char} {x : Char}
    (h : l.head? = some x) (hx : p x = false) : l.dropWhile p = l := by
  match l with
  | [] => simp at h
  | a :: t =>
    simp at h
    subst h
    simp [List.dropWhile_cons, hx]

theorem getLast?_nonempty {m : List Char} (h : m ≠ []) :
    ∃ d, m.getLast? = some d :=
  ⟨m.getLast h, List.getLast?_eq_getLast m h⟩

/-- Evaluation of `process_transcription` when the cleanup passes leave
nothing (line 261: `s = " "`). -/
theorem pt_nil {x : List Char} (h : normCore x = []) :
    process_transcription x = [' '] := by
  unfold process_transcription
  rw [h]

/-- Evaluation of `process_transcription` when the cleanup passes leave a
nonempty string (line 263: `s = s[0].upper() + s[1:] + " "`). -/
theorem pt_cons {x : List Char} {c : Char} {rest : List Char}
    (h : normCore x = c :: rest) :
    process_transcription x = (upperChar c :: rest) ++ [' '] := by
  unfold process_transcription
  rw [h]

/-- Structure of `normCore`'s output: when nonempty, its first character is
not whitespace, it contains no newline, and its last character is not
whitespace. -/
theorem normCore_shape {s : List Char} {c : Char} {rest : List Char}
    (h : normCore s = c :: rest) :
    isSp c = false ∧ (∀ x ∈ c :: rest, x ≠ '\n') ∧
    ∃ d, (c :: rest).getLast? = some d ∧ isSp d = false := by
  rw [normCore] at h
  match hm2 : pyStrip (removeBrackets s) with
  | [] =>
    rw [hm2] at h
    simp [replaceNl, replaceDbl] at h
  | c₀ :: m' =>
    rw [hm2] at h
    have hc₀ : isSp c₀ = false := pyStrip_head hm2
    have hc₀sp : ¬ c₀ = ' ' := by
      intro hh; rw [hh] at hc₀; exact absurd hc₀ (by decide)
    have hnlhead : (replaceNl (c₀ :: m')).head? = some c₀ :=
      replaceNl_head? hc₀ rfl
    obtain ⟨u, hu⟩ : ∃ u, replaceNl (c₀ :: m') = c₀ :: u := by
      match hru : replaceNl (c₀ :: m') with
      | [] => rw [hru] at hnlhead; simp at hnlhead
      | y :: u =>
        rw [hru] at hnlhead
        simp at hnlhead
        exact ⟨u, by rw [hnlhead]⟩
    rw [hu, replaceDbl_cons_of_ne hc₀sp] at h
    injection h with hc hrest
    obtain ⟨d, hd⟩ := getLast?_nonempty (m := c₀ :: m') (by simp)
    have hdsp : isSp d = false := by
      refine pyStrip_getLast? (l := removeBrackets s) ?_
      rw [hm2]; exact hd
    have hdsp' : ¬ d = ' ' := by
      intro hh; rw [hh] at hdsp; exact absurd hdsp (by decide)
    have hd1 : (replaceNl (c₀ :: m')).getLast? = some d :=
      replaceNl_getLast? hdsp hd
    have hd2 : (replaceDbl (replaceNl (c₀ :: m'))).getLast? = some d :=
      replaceDbl_getLast? hdsp' hd1
    rw [hu, replaceDbl_cons_of_ne hc₀sp, hc, hrest] at hd2
    refine ⟨hc ▸ hc₀, ?_, d, hd2, hdsp⟩
    intro x hx
    have hx1 : x ∈ replaceDbl (c₀ :: u) := by
      rw [replaceDbl_cons_of_ne hc₀sp, hc, hrest]
      exact hx
    have hx2 : x ∈ replaceNl (c₀ :: m') := by
      rw [hu]
      exact replaceDbl_mem hx1
    exact replaceNl_not_nl hx2

/-- The two conditions under which a second normalization pass is the
identity: no residual double space and no residual bracketed segment. -/
theorem norm_fixpoint {s : List Char}
    (h1 : noDbl (process_transcription s) = true)
    (h2 : removeBrackets (process_transcription s) = process_transcription s) :
    process_transcription (process_transcription s) = process_transcription s := by
  match hc : normCore s with
  | [] =>
    rw [pt_nil hc]
    decide
  | c :: rest =>
    obtain ⟨hsp, hnl, d, hdlast, hdsp⟩ := normCore_shape hc
    have ht : process_transcription s = (upperChar c :: rest) ++ [' '] := pt_cons hc
    have husp : isSp (upperChar c) = false := upperChar_not_sp hsp
    have hwlast : ∃ d', (upperChar c :: rest).getLast? = some d' ∧ isSp d' = false := by
      match rest, hdlast with
      | [], _ => exact ⟨upperChar c, rfl, husp⟩
      | e :: rest', hdlast =>
        refine ⟨d, ?_, hdsp⟩
        rw [List.getLast?_cons_cons]
        rw [List.getLast?_cons_cons] at hdlast
        exact hdlast
    obtain ⟨d', hd'last, hd'sp⟩ := hwlast
    -- step 2: strip removes exactly the appended trailing space
    have hstripL : stripL ((upperChar c :: rest) ++ [' ']) = (upperChar c :: rest) ++ [' '] := by
      rw [stripL]
      exact dropWhile_eq_self (x := upperChar c) rfl husp
    have hstripR : stripR ((upperChar c :: rest) ++ [' ']) = upperChar c :: rest := by
      rw [stripR, List.reverse_append]
      have h' : ((([' '] : List Char).reverse ++ (upperChar c :: rest).reverse).dropWhile isSp)
          = (upperChar c :: rest).reverse.dropWhile isSp := by
        rw [List.reverse_singleton, List.singleton_append, List.dropWhile_cons,
          if_pos (by decide : isSp ' ' = true)]
      rw [h']
      have hwrev : (upperChar c :: rest).reverse.head? = some d' := by
        rw [List.head?_reverse]
        exact hd'last
      rw [dropWhile_eq_self hwrev hd'sp, List.reverse_reverse]
    -- step 3: newline replacement is the identity on the kept part
    have hwnl : ∀ x ∈ upperChar c :: rest, x ≠ '\n' := by
      intro x hx
      rcases List.mem_cons.mp hx with hx | hx
      · subst hx
        exact upperChar_ne_nl (hnl c (by simp))
      · exact hnl x (by simp [hx])
    -- step 4: the double-space pass is the identity on the kept part
    have hwdbl : noDbl (upperChar c :: rest) = true := by
      rw [ht] at h1
      exact noDbl_append_left h1
    -- assemble: the second pass reproduces the same normalized core
    have hcore2 : normCore (process_transcription s) = upperChar c :: rest := by
      rw [normCore, h2, ht, pyStrip, hstripL, hstripR, replaceNl_eq_self hwnl,
        replaceDbl_of_noDbl hwdbl]
    rw [pt_cons hcore2, upperChar_idem, ht]

/-! ## Module-level mutable state and the recording state machine

The Python globals (lines 44-51) become an explicit state record.  A frame
list entry models one Python `bytes` object appended to `frames`, recorded
by its sample count; each `stream.read(CHUNK)` in the capture loop appends
one entry of `CHUNK` samples.  The audio queue is modelled by the duration
values enqueued (the filename part plays no role in the claims).
-/

structure WState where
  /-- global `modifier_pressed` (line 49) -/
  modifier_pressed : Bool
  /-- global `modifier_last_pressed` (line 50), a wall-clock timestamp -/
  modifier_last_pressed : ℚ
  /-- global `recording` (line 45) -/
  recording : Bool
  /-- global `frames` (line 48): sample count of each buffered bytes object -/
  frames : List ℕ
  /-- global `audio_queue` (line 51): durations enqueued with each recording -/
  audio_queue : List ℚ
  deriving DecidableEq

/-- Initial module state (lines 45-51). -/
def initState : WState :=
  { modifier_pressed := false, modifier_last_pressed := 0, recording := false,
    frames := [], audio_queue := [] }

/-- `process_and_clear_frames` (lines 221-245).  `duration` is computed as
`len(frames) * CHUNK / RATE` (line 223) — the *list length* times the chunk
size, which assumes every entry holds exactly `CHUNK` samples.  If the
duration is under 5 s, `pad_frames` chunks of silence are computed
(line 228, `int()` truncates the positive value, i.e. floor) and a single
silence bytes object of `CHUNK * pad_frames` samples is inserted at each
end (lines 230-233).  The enqueued duration is then recomputed by the same
`len(frames)` formula (line 243).  Returns the final frame list and the
enqueued duration. -/
def process_and_clear_frames (frames : List ℕ) : List ℕ × ℚ :=
  let duration : ℚ := ((frames.length : ℚ) * (CHUNK : ℚ)) / (RATE : ℚ)
  let frames' : List ℕ :=
    if duration < 5 then
      let padFrames : ℕ := (⌊(5 - duration) * (RATE : ℚ) / (CHUNK : ℚ) / 2⌋).toNat
      let silence : ℕ := CHUNK * padFrames
      silence :: (frames ++ [silence])
    else frames
  (frames', ((frames'.length : ℚ) * (CHUNK : ℚ)) / (RATE : ℚ))

/-- Total number of audio samples actually written to the WAV file
(line 240 joins all frame bytes). -/
def clipSamples (frames : List ℕ) : ℕ := frames.sum

/-- The real duration in seconds of the written clip. -/
def clipDuration (frames : List ℕ) : ℚ := ((clipSamples frames : ℚ)) / (RATE : ℚ)

/-- `on_press` (lines 314-324).  The `global` statement on line 315 names
only `modifier_last_pressed` and `recording`, so the assignment
`modifier_pressed = True` on line 317 binds a *function-local* variable and
the module-level `modifier_pressed` is unchanged.  When idle, the spawned
`record_audio` thread sets `recording = True` and `frames = []` on a
successful device open (lines 205-206); when recording, the press toggles
`recording` off. -/
def on_press (now : ℚ) (st : WState) : WState :=
  let st' := { st with modifier_last_pressed := now }
  if st'.recording then { st' with recording := false }
  else { st' with recording := true, frames := [] }

/-- `on_release` (lines 327-334).  As in `on_press`, the assignment
`modifier_pressed = False` (line 330) binds a local variable.  A release
within 0.25 s of the last press returns early (debounce, line 331);
otherwise `recording` is cleared. -/
def on_release (now : ℚ) (st : WState) : WState :=
  if now - st.modifier_last_pressed < 1/4 then st
  else { st with recording := false }

/-- One `stream.read(CHUNK)` iteration of the capture loop (lines 214-216):
while `recording`, a `CHUNK`-sample bytes object is appended to `frames`. -/
def read_chunk (st : WState) : WState :=
  if st.recording then { st with frames := st.frames ++ [CHUNK] } else st

/-- The capture loop's exit check (lines 214-218, 248-253): once
`recording` is false the loop falls through to `stop_recording`, which
flushes nonempty frames through `process_and_clear_frames`; that enqueues
`(fname, duration)` (line 244) and clears `frames` (line 245). -/
def stop_check (st : WState) : WState :=
  if st.recording then st
  else if st.frames = [] then st
  else
    let r := process_and_clear_frames st.frames
    { st with frames := [], audio_queue := st.audio_queue ++ [r.2] }

/-- The guard of the output-delivery busy-wait
`while modifier_pressed: time.sleep(0.02)` (lines 298-299): the worker
keeps waiting exactly while this is `true`; once it is `false` the paste
key-combo is sent (lines 302-304). -/
def paste_gate (st : WState) : Bool := st.modifier_pressed

/-- Events interleaved over the module state. -/
inductive Ev where
  | press : ℚ → Ev
  | release : ℚ → Ev
  | chunk : Ev
  | stopCheck : Ev

/-- Dispatch one event. -/
def step (st : WState) (e : Ev) : WState :=
  match e with
  | .press t => on_press t st
  | .release t => on_release t st
  | .chunk => read_chunk st
  | .stopCheck => stop_check st

/-- Run a sequence of events. -/
def run (st : WState) (tr : List Ev) : WState := tr.foldl step st

/-! ## Backend/model selection (`build_request_body`, lines 76-77) -/

/-- Line 77: the model id depends only on the `--mini` command-line flag. -/
def select_model (mini : Bool) : String :=
  if mini then "gpt-4o-mini-audio-preview-2024-12-17"
  else "gpt-4o-audio-preview-2024-12-17"

/-- Backend selection as seen by the worker for one utterance: the
pre-padding duration (`orig_duration`, line 270) is in scope when the
request is built, but `build_request_body` never consults it. -/
def selectBackend (mini : Bool) (_preDuration : ℚ) : String := select_model mini

/-! ## Device-open retry (`record_audio`, lines 189-212) -/

/-- `record_audio`, abstracted over an oracle `openOk k` giving the outcome
of the `audio.open` call on the invocation with `tries = k`.  Returns
(capture started, number of `audio.open` attempts made).  `tries > 3`
(line 191) prints the giving-up message and returns without opening the
device or touching `recording`; a failed open recurses with `tries + 1`
(line 212), threading the attempt count through. -/
def record_audio (openOk : ℕ → Bool) (tries : ℕ) : Bool × ℕ :=
  if tries > 3 then (false, 0)
  else if openOk tries then (true, 1)
  else
    let r := record_audio openOk (tries + 1)
    (r.1, r.2 + 1)
termination_by 4 - tries

/-! ## The transcription worker (`process_audio_openai`, lines 267-310) -/

/-- One pass of the worker loop body for a single dequeued utterance: the
backend call either returns raw text — which is normalized and delivered
(lines 294-304) — or raises, in which case the `except` on line 306 logs
the error and the loop continues; nothing is delivered for it. -/
def worker_step {α : Type} (backend : α → Except String (List Char)) (u : α) :
    Option (List Char) :=
  match backend u with
  | .ok raw => some (process_transcription raw)
  | .error _ => none

/-- The single worker thread (started on line 310) consuming the FIFO queue
strictly in order; `latency u` is the wall-clock duration of the backend
call for `u`, and each delivery is tagged with its completion time. -/
def worker_run {α : Type} (backend : α → Except String (List Char))
    (latency : α → ℚ) (t₀ : ℚ) : List α → List (List Char × ℚ)
  | [] => []
  | u :: rest =>
    match worker_step backend u with
    | some txt => (txt, t₀ + latency u) :: worker_run backend latency (t₀ + latency u) rest
    | none => worker_run backend latency (t₀ + latency u) rest

/-- The texts pasted by the worker, in delivery order. -/
def delivered {α : Type} (backend : α → Except String (List Char))
    (latency : α → ℚ) (t₀ : ℚ) (q : List α) : List (List Char) :=
  (worker_run backend latency t₀ q).map Prod.fst

/-! ## `--file` one-shot mode (`transcribe_file`, lines 337-361; `__main__`,
lines 364-376) -/

/-- Observable side effects of the program. -/
inductive Effect where
  | consoleOut : Effect
  | fileRead : Effect
  | httpRequest : Effect
  | clipboardCopy : List Char → Effect
  | pasteCombo : Effect
  | hotkeyListener : Effect
  deriving DecidableEq

/-- `transcribe_file` (lines 337-361): prints a header, reads and
base64-encodes the file, posts to the OpenAI API, prints the
transcription, the elapsed time and the cost lines.  Any exception inside
the `try` is caught (line 360) and an error line is printed; for the error
case the trace conservatively includes every side effect the `try` body
can perform before raising (file read, HTTP request, console output). -/
def transcribe_file (outcome : Except String (List Char × ℚ)) : List Effect :=
  match outcome with
  | .ok _ =>
    (Effect.consoleOut :: Effect.fileRead :: Effect.httpRequest ::
     Effect.consoleOut :: Effect.consoleOut :: Effect.consoleOut :: [])
  | .error _ =>
    (Effect.consoleOut :: Effect.fileRead :: Effect.httpRequest ::
     Effect.consoleOut :: [])

/-- `__main__` (lines 364-376): the effect trace of the *main thread*.
When `--file` is given it runs `transcribe_file` on the file and returns;
otherwise it starts the global hotkey listener and blocks on it.  The
transcription worker thread — started unconditionally at module level
(line 310), i.e. in both modes — is modelled separately below
(`workerThread`): in `--file` mode nothing is ever enqueued, so it
performs no effects (its first blocking `audio_queue.get()` never
returns), but being non-daemon and never finishing it keeps the process
alive after the main thread returns. -/
def main_effects (fileArg : Bool) (outcome : Except String (List Char × ℚ)) :
    List Effect :=
  if fileArg then transcribe_file outcome else [Effect.hotkeyListener]

/-- One iteration of the worker's `while True` loop (lines 269-307),
viewed by its exit outcome: `some u` would mean a `break` or `return`
ending the loop on iteration `n`.  The body has neither — the success
path ends with the paste (line 304) and the failure path in the `except`
handler's print (line 307), and both fall through to the next iteration —
so every iteration yields `none`. -/
def worker_iteration_exit (_n : ℕ) : Option Unit := none

/-- A `while True` loop terminates precisely when some iteration exits
it. -/
def worker_finishes : Prop := ∃ n, worker_iteration_exit n ≠ none

/-- A Python thread, by the two attributes relevant to interpreter
shutdown: whether it is a daemon thread and whether its target returns. -/
structure PyThread where
  daemon : Bool
  finishes : Prop

/-- The transcription worker thread as started on line 310:
`threading.Thread(target=process_audio_openai).start()` — the `daemon`
flag is left at its default `False`, and the target returns iff its
`while True` loop ever exits.  (In `--file` mode it is doubly stuck: the
first `audio_queue.get()` (line 270) additionally blocks forever on the
never-fed queue.) -/
def workerThread : PyThread := { daemon := false, finishes := worker_finishes }

/-- CPython terminates after the main thread returns only once every
non-daemon thread has finished. -/
def threads_allow_exit (threads : List PyThread) : Prop :=
  ∀ t ∈ threads, t.daemon = true ∨ t.finishes

/-- Whether the `--file` invocation terminates: the main thread runs
`transcribe_file` and returns (lines 365-367), and the only other live
thread is the module-level worker. -/
def file_mode_exits : Prop := threads_allow_exit [workerThread]

/-! ## Helper lemmas for the state machine and the worker -/

theorem run_chunks (n : ℕ) (mp : Bool) (t : ℚ) (fs : List ℕ) (q : List ℚ) :
    run ⟨mp, t, true, fs, q⟩ (List.replicate n Ev.chunk) =
      ⟨mp, t, true, fs ++ List.replicate n CHUNK, q⟩ := by
  induction n generalizing fs with
  | zero => simp [run]
  | succ k ih =>
    rw [List.replicate_succ, run, List.foldl_cons]
    have h1 : step ⟨mp, t, true, fs, q⟩ Ev.chunk = ⟨mp, t, true, fs ++ [CHUNK], q⟩ := by
      simp [step, read_chunk]
    rw [h1]
    have h2 := ih (fs ++ [CHUNK])
    rw [run] at h2
    rw [h2]
    simp [List.replicate_succ]

theorem delivered_time_indep {α : Type} (backend : α → Except String (List Char))
    (latency : α → ℚ) (t₀ t₁ : ℚ) (q : List α) :
    delivered backend latency t₀ q = delivered backend latency t₁ q := by
  induction q generalizing t₀ t₁ with
  | nil => rfl
  | cons u rest ih =>
    rw [delivered, delivered, worker_run, worker_run]
    match worker_step backend u with
    | some txt => simp only [List.map_cons]; rw [← delivered, ← delivered, ih]
    | none => rw [← delivered, ← delivered, ih]

/-! ## Claim theorems -/

/-- C1: the spec says the paste is issued only after the trigger key is
released, with `modifier_pressed` set `True` by the press handler and
polled by the worker before pasting.  In the code this is broken: the
`global` statements in `on_press`/`on_release` omit `modifier_pressed`, so
both assignments bind locals and the module-level flag — the one the
worker's busy-wait reads — is never set.  After a press (key physically
held) the paste gate is already open, so the paste key-combo is sent while
the key is held. -/
theorem press_handler_never_sets_paste_gate :
    (∀ (t : ℚ) (st : WState), (on_press t st).modifier_pressed = st.modifier_pressed) ∧
    (∀ (t : ℚ) (st : WState), (on_release t st).modifier_pressed = st.modifier_pressed) ∧
    paste_gate (on_press 0 initState) = false := by
  refine ⟨fun t st => ?_, fun t st => ?_, rfl⟩
  · rw [on_press]
    split <;> rfl
  · rw [on_release]
    split <;> rfl

/-- C2: evaluating `process_and_clear_frames` on a one-chunk recording
(512 samples, 0.032 s).  The code enqueues duration `12/125` = 0.096 s —
`len(frames)` counts the two padding entries as one chunk each — while the
clip actually written holds 79360 samples = `124/25` = 4.96 s; so the
enqueued duration is not the post-padding clip length, and the padded clip
is not exactly the 5 s minimum either (the chunk count is floored). -/
theorem padding_duration_mismatch :
    process_and_clear_frames [CHUNK] = ([39424, 512, 39424], 12/125) ∧
    clipDuration (process_and_clear_frames [CHUNK]).1 = 124/25 ∧
    (12/125 : ℚ) ≠ 124/25 ∧ (124/25 : ℚ) ≠ 5 := by
  have h : process_and_clear_frames [CHUNK] = ([39424, 512, 39424], 12/125) := by
    rw [process_and_clear_frames]
    norm_num [CHUNK, RATE]
    decide
  refine ⟨h, ?_, by norm_num, by norm_num⟩
  rw [h, clipDuration, clipSamples]
  norm_num [RATE]

/-- C3 counterexample: backend selection is not a function of the
utterance's pre-padding duration — two invocations with the same duration
(2 s) but different `--mini` flag values select different models. -/
theorem selection_not_function_of_duration :
    selectBackend true 2 ≠ selectBackend false 2 := by decide

/-- C3 (amended): backend selection ignores the duration entirely; for a
fixed `--mini` flag it is constant, so selecting twice with the same (or
any) duration yields the same model. -/
theorem selection_ignores_duration :
    ∀ (mini : Bool) (d d' : ℚ), selectBackend mini d = selectBackend mini d' :=
  fun _ _ _ => rfl

/-- C4 counterexample: normalization is not idempotent.  On an input with
three spaces between two letters, the single double-space pass leaves a
double space, which a second application collapses further. -/
theorem norm_not_idempotent_triple_space :
    process_transcription (process_transcription (("a   b").data)) ≠
      process_transcription (("a   b").data) := by decide

/-- C4 witness: a normal input satisfying both side conditions, on which
idempotence holds. -/
theorem norm_fixpoint_witness :
    noDbl (process_transcription (("hello world").data)) = true ∧
    removeBrackets (process_transcription (("hello world").data)) =
      process_transcription (("hello world").data) ∧
    process_transcription (process_transcription (("hello world").data)) =
      process_transcription (("hello world").data) :=
  ⟨by decide, by decide, norm_fixpoint (by decide) (by decide)⟩

/-- C5 counterexample: normalization does not collapse all internal
whitespace — a run of four spaces still leaves two adjacent spaces in the
output, because `.replace("  ", " ")` makes only one non-overlapping
left-to-right pass. -/
theorem norm_keeps_double_space_from_run :
    process_transcription (("a    b").data) = ("A  b ").data ∧
    noDbl (process_transcription (("a    b").data)) = false := by
  constructor <;> decide

/-- C5 (amended): normalization strips bracketed annotations, replaces
newlines by spaces and collapses adjacent space pairs in one pass,
capitalizes the first letter and appends a single trailing space; an empty
or emptied input yields a single space; `"[noise] hello world  "`
normalizes to `"Hello world "`. -/
theorem norm_operations :
    process_transcription (("[noise] hello world  ").data) = ("Hello world ").data ∧
    process_transcription [] = [' '] ∧
    process_transcription (("   ").data) = [' '] ∧
    process_transcription (("a  b\nc").data) = ("A b c ").data ∧
    (∀ s : List Char, (process_transcription s).getLast? = some ' ') := by
  refine ⟨by decide, by decide, by decide, by decide, fun s => ?_⟩
  match hc : normCore s with
  | [] => rw [pt_nil hc]; rfl
  | c :: rest => rw [pt_cons hc]; exact List.getLast?_concat _

/-- C6: a release arriving less than the 0.25 s debounce window after the
press is ignored: for a press at `t₀`, any number of captured chunks, and a
release at `t₁` with `t₁ - t₀ < 1/4`, nothing is enqueued (and the
recording is not even stopped). -/
theorem short_tap_enqueues_nothing (n : ℕ) (t₀ t₁ : ℚ) (h : t₁ - t₀ < 1/4) :
    (run initState (Ev.press t₀ ::
        (List.replicate n Ev.chunk ++ (Ev.release t₁ :: Ev.stopCheck :: [])))).audio_queue = [] ∧
    (run initState (Ev.press t₀ ::
        (List.replicate n Ev.chunk ++ (Ev.release t₁ :: Ev.stopCheck :: [])))).recording = true := by
  have h1 : step initState (Ev.press t₀) = ⟨false, t₀, true, [], []⟩ := rfl
  have h2 : run initState (Ev.press t₀ ::
      (List.replicate n Ev.chunk ++ (Ev.release t₁ :: Ev.stopCheck :: []))) =
      run ⟨false, t₀, true, [], []⟩
        (List.replicate n Ev.chunk ++ (Ev.release t₁ :: Ev.stopCheck :: [])) := by
    rw [run, List.foldl_cons, h1, run]
  rw [h2, run, List.foldl_append]
  have h2b : List.foldl step ⟨false, t₀, true, [], []⟩ (List.replicate n Ev.chunk) =
      ⟨false, t₀, true, List.replicate n CHUNK, []⟩ := by
    have hrc := run_chunks n false t₀ [] []
    rw [run] at hrc
    simpa using hrc
  rw [h2b]
  have h3 : step ⟨false, t₀, true, List.replicate n CHUNK, []⟩ (Ev.release t₁) =
      ⟨false, t₀, true, List.replicate n CHUNK, []⟩ := by
    rw [step, on_release]
    exact if_pos h
  rw [List.foldl_cons, h3, List.foldl_cons]
  have h4 : step ⟨false, t₀, true, List.replicate n CHUNK, []⟩ Ev.stopCheck =
      ⟨false, t₀, true, List.replicate n CHUNK, []⟩ := by
    rw [step, stop_check]
    exact if_pos rfl
  rw [h4]
  exact ⟨rfl, rfl⟩

/-- C6 witness: press at t=0, three captured chunks, release within the
debounce window. -/
theorem short_tap_enqueues_nothing_witness :
    ((0 : ℚ) - 0 < 1/4) ∧
    ((run initState (Ev.press 0 ::
        (List.replicate 3 Ev.chunk ++ (Ev.release 0 :: Ev.stopCheck :: [])))).audio_queue = [] ∧
     (run initState (Ev.press 0 ::
        (List.replicate 3 Ev.chunk ++ (Ev.release 0 :: Ev.stopCheck :: [])))).recording = true) :=
  ⟨by simp, short_tap_enqueues_nothing 3 0 0 (by simp)⟩

/-- C7: if every `audio.open` call fails, `record_audio` makes exactly four
open attempts — the initial one plus three retries, the attempt count
threaded through `tries` — and gives up without starting capture
(`recording` stays false); once the bound is exhausted (`tries > 3`) no
further attempt is made. -/
theorem device_open_retry_bound (openOk : ℕ → Bool) (h : ∀ k, openOk k = false) :
    record_audio openOk 0 = (false, 4) ∧ record_audio openOk 4 = (false, 0) := by
  constructor <;> simp [record_audio, h]

/-- C7 witness: the always-failing device. -/
theorem device_open_retry_bound_witness :
    record_audio (fun _ => false) 0 = (false, 4) ∧
    record_audio (fun _ => false) 4 = (false, 0) :=
  device_open_retry_bound (fun _ => false) (fun _ => rfl)

/-- Backend used by the worker witnesses: utterance 0 fails, the rest
transcribe. -/
def errBackend : ℕ → Except String (List Char) :=
  fun n => if n = 0 then Except.error ("boom") else Except.ok ('h' :: 'i' :: [])

/-- C8: an utterance whose backend call raises is logged and skipped; the
worker proceeds to the remaining queue exactly as if the failed utterance
had not been there — no failure terminates the loop. -/
theorem worker_continues_after_error {α : Type}
    (backend : α → Except String (List Char)) (latency : α → ℚ) (t₀ : ℚ)
    (bad : α) (q' : List α) (e : String) (hbad : backend bad = Except.error e) :
    delivered backend latency t₀ (bad :: q') = delivered backend latency t₀ q' := by
  have h1 : delivered backend latency t₀ (bad :: q') =
      delivered backend latency (t₀ + latency bad) q' := by
    rw [delivered, worker_run, worker_step, hbad]
    rfl
  rw [h1]
  exact delivered_time_indep backend latency _ _ q'

/-- C8 witness: utterance 0 errors, utterance 1 is still processed. -/
theorem worker_continues_after_error_witness :
    errBackend 0 = Except.error ("boom") ∧
    delivered errBackend (fun _ => 1) 0 (0 :: 1 :: []) =
      delivered errBackend (fun _ => 1) 0 (1 :: []) :=
  ⟨rfl, worker_continues_after_error errBackend (fun _ => 1) 0 0 (1 :: []) ("boom") rfl⟩

/-- C9: three utterances queued in order A, B, C are delivered in order
A, B, C — for every latency function, i.e. regardless of per-utterance
backend latency — because the single worker processes the FIFO queue
sequentially. -/
theorem fifo_order_preserved {α : Type}
    (backend : α → Except String (List Char)) (latency : α → ℚ) (t₀ : ℚ)
    (a b c : α) (ra rb rc : List Char)
    (ha : backend a = Except.ok ra) (hb : backend b = Except.ok rb)
    (hc : backend c = Except.ok rc) :
    delivered backend latency t₀ (a :: b :: c :: []) =
      process_transcription ra :: process_transcription rb ::
        process_transcription rc :: [] := by
  rw [delivered, worker_run, worker_step, ha, worker_run, worker_step, hb,
    worker_run, worker_step, hc, worker_run]
  rfl

/-- C9 witness: three utterances where the middle one is much slower. -/
theorem fifo_order_preserved_witness :
    errBackend 1 = Except.ok ('h' :: 'i' :: []) ∧
    errBackend 2 = Except.ok ('h' :: 'i' :: []) ∧
    errBackend 3 = Except.ok ('h' :: 'i' :: []) ∧
    delivered errBackend (fun n => if n = 2 then 100 else 1) 0 (1 :: 2 :: 3 :: []) =
      process_transcription ('h' :: 'i' :: []) :: process_transcription ('h' :: 'i' :: []) ::
        process_transcription ('h' :: 'i' :: []) :: [] :=
  ⟨rfl, rfl, rfl,
    fifo_order_preserved errBackend (fun n => if n = 2 then 100 else 1) 0
      1 2 3 _ _ _ rfl rfl rfl⟩

/-- C10: the spec's claim is right about the side effects and wrong about
termination — in `--file` mode the main thread only prints (and reads the
file / calls the API): no clipboard write, no paste key-combo and no
hotkey listener appear in its trace, on success that trace is exactly
header, file read, API call and the three result prints, and the worker
thread, fed nothing, delivers nothing.  But the program does not exit, the
code's own comment on line 366 (`just transcribe it and exit`)
notwithstanding: the worker thread started unconditionally on line 310 is
non-daemon and its `while True` loop never finishes (no iteration exits
it, and its blocking dequeue is never fed), so the interpreter hangs after
the prints. -/
theorem file_mode_hangs_without_side_effects :
    ¬ file_mode_exits ∧
    (∀ (outcome : Except String (List Char × ℚ)),
      (∀ text, Effect.clipboardCopy text ∉ main_effects true outcome) ∧
      Effect.pasteCombo ∉ main_effects true outcome ∧
      Effect.hotkeyListener ∉ main_effects true outcome) ∧
    (∀ x : List Char × ℚ, main_effects true (Except.ok x) =
      Effect.consoleOut :: Effect.fileRead :: Effect.httpRequest ::
        Effect.consoleOut :: Effect.consoleOut :: Effect.consoleOut :: []) ∧
    (∀ (backend : ℚ → Except String (List Char)) (latency : ℚ → ℚ) (t₀ : ℚ),
      delivered backend latency t₀ [] = []) := by
  refine ⟨?_, ?_, fun x => rfl, fun backend latency t₀ => rfl⟩
  · intro hex
    rcases hex workerThread (by simp) with hd | hf
    · exact absurd hd (by simp [workerThread])
    · obtain ⟨n, hn⟩ := hf
      exact hn rfl
  · intro outcome
    refine ⟨fun text => ?_, ?_, ?_⟩ <;>
      cases outcome <;> simp [main_effects, transcribe_file]

end Whisperer
